import Mathlib

/-!
Shallow embedding of the core pipeline of `rust-spfresh-services`
(file `src/main.rs`, plus the bundled `spfresh` stub library), together
with proofs about the embedded operations.

Modelling conventions:
* Rust `f32` values are modelled as real numbers (`ℝ`); float vectors as `List ℝ`.
* Rust `String`/`&str` text is modelled as `List Char`.
* `u32` counters are modelled as `Nat` together with the saturating add
  used by the source (`saturating_add`).
* File I/O that can fail in the environment is modelled by explicit
  `Option Err` fault parameters / `Except` results; a `none` fault means
  the write succeeds and appends to the in-memory image of the file.
* The hash used by `DefaultHasher` and Rust `to_lowercase` are opaque to
  every claim, so they are fields of the `Embedder` structure.
-/

namespace SemesticReview

/-- Error taxonomy of the spec (§7): validation, integrity, environment,
not-found.  The Rust source uses `anyhow` strings; the constructors record
which of the spec's classes a given failure site belongs to. -/
inductive Err where
  | validation
  | integrity
  | environment
  | notFound
deriving DecidableEq

/-- Largest `u32` value, the saturation bound of `u32::saturating_add`. -/
def u32Max : Nat := 4294967295

/-- Model of `x.saturating_add(1)` on a `u32` counter. -/
def satAdd (x : Nat) : Nat := min (x + 1) u32Max

/-- `TfIdfEmbedder` configuration (main.rs lines 25‑33): the dimension `dim`,
plus the two operations the claims treat as opaque: the `DefaultHasher`
hash and Rust string lowercasing. -/
structure Embedder where
  dim : Nat
  hash : List Char → Nat
  lower : List Char → List Char

/-- `TfIdfEmbedder::bucket` (main.rs lines 34‑39): hash of the lowercased
token, reduced mod `dim`. -/
def Embedder.bucket (e : Embedder) (tok : List Char) : Nat :=
  e.hash (e.lower tok) % e.dim

/-- Semantics of Rust `str::split(p)` on a character predicate: the list of
(possibly empty) segments between separator characters. -/
def rsplit (p : Char → Bool) : List Char → List (List Char)
  | [] => [[]]
  | c :: cs => if p c then [] :: rsplit p cs else (rsplit p cs).modifyHead (c :: ·)

/-- Tokenization used by both featurizers (main.rs lines 50, 63):
`text.split(|c| !c.is_alphanumeric()).filter(|t| !t.is_empty())`. -/
def tokenize (s : List Char) : List (List Char) :=
  (rsplit (fun c => !c.isAlphanum) s).filter (fun t => t ≠ [])

/-- Maximal runs of characters satisfying `p` (spec wording: tokens are the
maximal alphanumeric runs, empty tokens dropped).  Used only on the
spec side of claim C4. -/
def runs (p : Char → Bool) : List Char → List (List Char)
  | [] => []
  | c :: cs =>
    if p c then (c :: cs.takeWhile p) :: runs p (cs.dropWhile p)
    else runs p cs
termination_by l => l.length
decreasing_by
  · have h : (cs.takeWhile p).length + (cs.dropWhile p).length = cs.length := by
      rw [← List.length_append, List.takeWhile_append_dropWhile]
    simp only [List.length_cons]
    omega
  · simp [Nat.lt_succ_iff]

/-- One accumulation step `v[i] += 1.0` of the term-frequency loop. -/
def bumpAt (v : List ℝ) (i : Nat) : List ℝ := v.set i (v.getD i 0 + 1)

/-- The term-frequency loop of `featurize_index` (main.rs lines 50‑54):
accumulates `v[bucket(tok)] += 1.0` and inserts the bucket into the
`seen` set (modelled as a duplicate-free list in insertion order). -/
def tfLoop (e : Embedder) : List (List Char) → List ℝ → List Nat → List ℝ × List Nat
  | [], v, seen => (v, seen)
  | t :: ts, v, seen =>
    let i := e.bucket t
    tfLoop e ts (bumpAt v i) (if i ∈ seen then seen else seen ++ [i])

/-- The term-frequency loop of `featurize_query` (main.rs lines 63‑65),
which tracks no `seen` set. -/
def tfLoopQ (e : Embedder) : List (List Char) → List ℝ → List ℝ
  | [], v => v
  | t :: ts, v => tfLoopQ e ts (bumpAt v (e.bucket t))

/-- `TfIdfEmbedder::idf` (main.rs lines 40‑42):
`ln((docs_now + 1) / (df_i + 1)) + 1`. -/
noncomputable def idfR (dfI docsNow : Nat) : ℝ :=
  Real.log (((docsNow : ℝ) + 1) / ((dfI : ℝ) + 1)) + 1

/-- Sum of squares of a vector, `vec.iter().map(|x| x * x).sum()`. -/
def sumSq (v : List ℝ) : ℝ := (v.map (fun x => x * x)).sum

/-- `TfIdfEmbedder::l2_normalize` (main.rs lines 43‑46): divide by the
L2 norm, floored at `1e-6`. -/
noncomputable def l2_normalize (v : List ℝ) : List ℝ :=
  let norm := max (Real.sqrt (sumSq v)) (1 / 1000000)
  v.map (fun x => x / norm)

/-- L2 norm of a vector (for stating the normalization claims). -/
noncomputable def l2norm (v : List ℝ) : ℝ := Real.sqrt (sumSq v)

/-- Mutable corpus statistics of the embedder: the `df` array (length `dim`)
and the document counter `docs` (main.rs lines 27‑28). -/
structure EmbState where
  df : List Nat
  docs : Nat

/-- The initial corpus statistics: `df = vec![0; dim]`, `docs = 0`. -/
def initEmbState (dim : Nat) : EmbState := ⟨List.replicate dim 0, 0⟩

/-- `TfIdfEmbedder::featurize_index` (main.rs lines 47‑60): accumulate term
frequencies, bump `df` once per distinct touched bucket (saturating),
bump `docs` (saturating), weight every nonzero dimension by idf computed
from the updated statistics, and L2-normalize.  Returns the vector and
the updated statistics. -/
noncomputable def featurize_index (e : Embedder) (st : EmbState) (text : List Char) :
    List ℝ × EmbState :=
  let acc := tfLoop e (tokenize text) (List.replicate e.dim 0) []
  let v := acc.1
  let seen := acc.2
  let df2 := seen.foldl (fun df i => df.set i (satAdd (df.getD i 0))) st.df
  let docsNow := satAdd st.docs
  let w := v.mapIdx (fun i x => if 0 < x then x * idfR (df2.getD i 0) docsNow else x)
  (l2_normalize w, ⟨df2, docsNow⟩)

/-- `TfIdfEmbedder::featurize_query` (main.rs lines 61‑70): same
accumulation and weighting, but reads the statistics (docs floored at 1)
and never mutates them. -/
noncomputable def featurize_query (e : Embedder) (st : EmbState) (text : List Char) :
    List ℝ :=
  let v := tfLoopQ e (tokenize text) (List.replicate e.dim 0)
  let docsNow := max st.docs 1
  let w := v.mapIdx (fun i x => if 0 < x then x * idfR (st.df.getD i 0) docsNow else x)
  l2_normalize w

/-- `Embedder::embed_index` for `TfIdfEmbedder` (main.rs line 73): always
`Ok` of the featurized vector. -/
noncomputable def embed_index (e : Embedder) (st : EmbState) (text : List Char) :
    Except Err (List ℝ × EmbState) :=
  .ok (featurize_index e st text)

/-- `Embedder::embed_query` for `TfIdfEmbedder` (main.rs line 74): always
`Ok` of the featurized vector. -/
noncomputable def embed_query (e : Embedder) (st : EmbState) (text : List Char) :
    Except Err (List ℝ) :=
  .ok (featurize_query e st text)

/-- Spec-side restatement of `featurize_index`, following the words of
claim C4: tokens are the maximal alphanumeric runs; the raw
term-frequency of bucket `i` is the number of tokens hashed to `i`; the
document-frequency counter is incremented once per distinct touched
bucket and the document counter once; every nonzero dimension of the raw
term-frequency vector is multiplied by `ln((docs+1)/(df_i+1)) + 1` using
the updated statistics, before L2 normalization. -/
noncomputable def featurize_index_spec (e : Embedder) (st : EmbState) (text : List Char) :
    List ℝ × EmbState :=
  let toks := runs (fun c => c.isAlphanum) text
  let tf : Nat → Nat := fun i => toks.countP (fun t => e.bucket t = i)
  let df2 := st.df.mapIdx (fun i x => if toks.any (fun t => e.bucket t = i) then x + 1 else x)
  let docs2 := st.docs + 1
  let w := (List.range e.dim).map (fun i =>
    if tf i ≠ 0 then
      (tf i : ℝ) * (Real.log (((docs2 : ℝ) + 1) / ((df2.getD i 0 : ℝ) + 1)) + 1)
    else (tf i : ℝ))
  (l2_normalize w, ⟨df2, docs2⟩)

/-- A stored document (`Review`, main.rs lines 214‑220).  Rust `String`
fields are modelled as `List Char`; the rating is an `i32`. -/
structure Review where
  review_title : List Char
  review_body : List Char
  product_id : List Char
  review_rating : Int
deriving DecidableEq

/-- The `spfresh` stub's `Index::append` (spfresh/lib.rs lines 16‑17):
ignores the vector and always returns `Ok(0)`. -/
def stubIndexAppend {α : Type} (_v : List α) : Except (List Char) Nat := .ok 0

/-- Byte length of the mirror file `reviews.index` when it holds the given
f32 records: each float occupies 4 bytes. -/
def mirrorByteLen {α : Type} (mirror : List α) : Nat := 4 * mirror.length

/-- `SpfreshIndex::append` together with `mirror_append_checked`
(main.rs lines 126‑162).  The mirror file is modelled by the flat list of
its f32 records (`mirror`); `fault` injects an environment failure of the
seek/write/flush/sync sequence.  The dimension check precedes everything
(line 153); the id comes from the stub append; the post-write length
check compares byte lengths (lines 136‑141).  The state component of the
result is the mirror file content after the call (files persist even
when an error is returned). -/
def vec_append {α : Type} (dim : Nat) (fault : Option Err) (mirror : List α)
    (v : List α) : Except Err Nat × List α :=
  if v.length = dim then
    match stubIndexAppend v with
    | .error _ => (.error .environment, mirror)
    | .ok id =>
      match fault with
      | some e => (.error e, mirror)
      | none =>
        let mirror2 := mirror ++ v
        if mirrorByteLen mirror2 = mirrorByteLen mirror + dim * 4 then (.ok id, mirror2)
        else (.error .integrity, mirror2)
  else (.error .validation, mirror)

/-- `MetaStore::append` (main.rs lines 183‑189): serialize the review to
one JSON line and append it.  The file is modelled by its list of
records; `fault` injects an open/write failure. -/
def meta_append (fault : Option Err) (meta : List Review) (r : Review) :
    Except Err (List Review) :=
  match fault with
  | some e => .error e
  | none => .ok (meta ++ [r])

/-- `MetaStore::read_review_by_line` (main.rs lines 190‑199): return the
id-th line, or fail when `id` is past the end of the file. -/
def meta_read (meta : List Review) (id : Nat) : Except Err Review :=
  match meta.get? id with
  | some r => .ok r
  | none => .error .notFound

/-- `MetaStore::count` (main.rs lines 200‑204): the number of lines. -/
def meta_count (meta : List Review) : Nat := meta.length

/-- The whole mutable state of the service: embedder statistics, the
mirror vector file, and the metadata file. -/
structure Sys where
  emb : EmbState
  mirror : List ℝ
  meta : List Review

/-- Environment faults that one `insert_one` call may encounter: a failure
of the mirror-file write inside `SpfreshIndex::append`, and a failure of
the metadata-file write inside `MetaStore::append`. -/
structure Fault where
  mirrorFault : Option Err
  metaFault : Option Err

/-- A fault-free environment. -/
def noFault : Fault := ⟨none, none⟩

/-- The `insert_one` handler (main.rs lines 235‑242): embed
`title ++ " " ++ body`, append the vector, append the metadata, return
the id.  Each failing step `.expect`s, i.e. panics: the model returns the
error as the first component while keeping the state the panic leaves
behind (embedder statistics and files already mutated stay mutated). -/
noncomputable def insert_one (e : Embedder) (f : Fault) (s : Sys) (r : Review) :
    Except Err Nat × Sys :=
  let txt := r.review_title ++ [' '] ++ r.review_body
  let emb2 := featurize_index e s.emb txt
  let vec := emb2.1
  let s1 : Sys := ⟨emb2.2, s.mirror, s.meta⟩
  match vec_append e.dim f.mirrorFault s1.mirror vec with
  | (.error err, mirror2) => (.error err, ⟨s1.emb, mirror2, s1.meta⟩)
  | (.ok id, mirror2) =>
    match meta_append f.metaFault s1.meta r with
    | .error err => (.error err, ⟨s1.emb, mirror2, s1.meta⟩)
    | .ok meta2 => (.ok id, ⟨s1.emb, mirror2, meta2⟩)

/-- Iterated fault-free `insert_one` (for claim C2): the state after a
sequence of successful inserts. -/
noncomputable def insertAll (e : Embedder) : Sys → List Review → Sys
  | s, [] => s
  | s, r :: rs => insertAll e (insert_one e noFault s r).2 rs

/-- Loop body of the `insert_bulk` handler (main.rs lines 247‑257):
documents are processed in input order (`faults i` is the environment
met by the i-th document), `ok` counts successes; the first failing
`.expect` panics, aborting the loop.  The result is the reported count
(`.ok`) or the panic (`.error`), together with the final store state. -/
noncomputable def insert_bulk_go (e : Embedder) (faults : Nat → Fault) :
    Nat → Nat → Sys → List Review → Except Err Nat × Sys
  | _, acc, s, [] => (.ok acc, s)
  | i, acc, s, r :: rs =>
    match insert_one e (faults i) s r with
    | (.error err, s2) => (.error err, s2)
    | (.ok _, s2) => insert_bulk_go e faults (i + 1) (acc + 1) s2 rs

/-- The `insert_bulk` handler (main.rs lines 247‑257). -/
noncomputable def insert_bulk (e : Embedder) (faults : Nat → Fault) (s : Sys)
    (rs : List Review) : Except Err Nat × Sys :=
  insert_bulk_go e faults 0 0 s rs

/-- Spec-side helper for claim C7: run `insert_one` over a list requiring
every call to succeed; `none` when some call fails. -/
noncomputable def runOk (e : Embedder) (faults : Nat → Fault) :
    Nat → Sys → List Review → Option Sys
  | _, s, [] => some s
  | i, s, r :: rs =>
    match insert_one e (faults i) s r with
    | (.ok _, s2) => runOk e faults (i + 1) s2 rs
    | (.error _, _) => none

/-- `cosine` (main.rs lines 259‑265): dot product over the common prefix
of the two vectors (0 when either is empty). -/
def cosine (a b : List ℝ) : ℝ := (List.zipWith (fun x y => x * y) a b).sum

/-- `bytes_per_vec` (main.rs line 294): `dim * 4`. -/
def bytesPerVecOf (dim : Nat) : Nat := dim * 4

/-- `total_vecs` (main.rs line 299): file length divided by record size. -/
def totalVecsOf (bufLen dim : Nat) : Nat := bufLen / bytesPerVecOf dim

/-- `n` (main.rs line 301): the scan bound, the minimum of the metadata
line count and the number of complete records in the mirror file. -/
def scanCount (metaCount bufLen dim : Nat) : Nat :=
  min metaCount (totalVecsOf bufLen dim)

/-- The byte chunk read for record `id` (main.rs lines 305‑306):
`buf[id * bytes_per_vec .. (id + 1) * bytes_per_vec]`. -/
def chunkBytes {β : Type} (buf : List β) (dim id : Nat) : List β :=
  (buf.drop (id * bytesPerVecOf dim)).take (bytesPerVecOf dim)

/-- Record `id` of the mirror file at float granularity (the result of the
byte-to-f32 reinterpretation of `chunkBytes`, main.rs lines 307‑312). -/
def vecAt (mirror : List ℝ) (dim id : Nat) : List ℝ :=
  (mirror.drop (id * dim)).take dim

/-- One search hit (`SearchHit`, main.rs line 228). -/
structure SearchHit where
  id : Nat
  score : ℝ
  review : Review

/-- The environment one `search` call observes: the result of embedding
the query, of counting the metadata store, of reading the mirror file
(as its list of f32 records), and of each by-line metadata read. -/
structure SearchEnv where
  qv : Except Err (List ℝ)
  metaCount : Except Err Nat
  buf : Except Err (List ℝ)
  readLine : Nat → Except Err Review

/-- `scored.sort_by(|a, b| b.1.partial_cmp(&a.1).unwrap_or(Equal))`
(main.rs line 318): stable sort, descending by score. -/
noncomputable def sortDesc (scored : List (Nat × ℝ)) : List (Nat × ℝ) :=
  scored.mergeSort (fun a b => decide (b.2 ≤ a.2))

/-- Scoring, ranking and truncation inside `search` (main.rs lines
299‑319): score every record `id < n` against the query, sort descending
by score, keep the first `k`. -/
noncomputable def rankedTrunc (qv mirror : List ℝ) (metaCount k : Nat) :
    List (Nat × ℝ) :=
  let n := scanCount metaCount (mirrorByteLen mirror) qv.length
  (sortDesc ((List.range n).map
    (fun id => (id, cosine qv (vecAt mirror qv.length id))))).take k

/-- The `search` handler (main.rs lines 267‑330): clamp `top_k` (default 5)
to at most 100; on embed / count / file-read failure return no hits;
scan `n = min(meta count, complete records)` records, score each against
the query, sort descending, truncate to `k`, and join each survivor with
its metadata line, silently dropping hits whose read fails. -/
noncomputable def search (env : SearchEnv) (topK : Option Nat) : List SearchHit :=
  let k := min (topK.getD 5) 100
  match env.qv, env.metaCount, env.buf with
  | .ok qv, .ok metaCount, .ok mirror =>
    if mirrorByteLen mirror < bytesPerVecOf qv.length then []
    else
      (rankedTrunc qv mirror metaCount k).filterMap
        (fun p => (env.readLine p.1).toOption.map (fun r => ⟨p.1, p.2, r⟩))
  | _, _, _ => []

/-! ## Theorems -/

theorem sortDesc_pairwise (l : List (Nat × ℝ)) :
    (sortDesc l).Pairwise (fun a b => b.2 ≤ a.2) := by
  have h := @List.sorted_mergeSort (Nat × ℝ) (fun a b => decide (b.2 ≤ a.2))
    (fun a b c hab hbc => by
      simp only [decide_eq_true_eq] at hab hbc ⊢
      exact le_trans hbc hab)
    (fun a b => by
      simp only [Bool.or_eq_true, decide_eq_true_eq]
      exact le_total b.2 a.2) l
  exact h.imp (fun hab => of_decide_eq_true hab)

theorem rankedTrunc_pairwise (qv mirror : List ℝ) (metaCount k : Nat) :
    (rankedTrunc qv mirror metaCount k).Pairwise (fun a b => b.2 ≤ a.2) :=
  (sortDesc_pairwise _).sublist (List.take_sublist _ _)

theorem rankedTrunc_length (qv mirror : List ℝ) (metaCount k : Nat) :
    (rankedTrunc qv mirror metaCount k).length ≤ k := by
  simp [rankedTrunc]

/-- Claim C3: `search` returns at most `min(k, 100)` hits, the hits are
ordered non-increasingly by score, and an omitted `topK` defaults to 5. -/
theorem search_topk_bound_sorted (env : SearchEnv) (o : Option Nat) :
    (search env o).length ≤ min (o.getD 5) 100 ∧
    (search env o).Pairwise (fun a b => b.score ≤ a.score) ∧
    search env none = search env (some 5) := by
  refine ⟨?_, ?_, rfl⟩
  · unfold search
    cases env.qv with
    | error e => simp
    | ok qv =>
      cases env.metaCount with
      | error e => simp
      | ok mc =>
        cases env.buf with
        | error e => simp
        | ok mirror =>
          simp only []
          split
          · simp
          · exact le_trans (List.length_filterMap_le _ _) (rankedTrunc_length _ _ _ _)
  · unfold search
    cases env.qv with
    | error e => simp
    | ok qv =>
      cases env.metaCount with
      | error e => simp
      | ok mc =>
        cases env.buf with
        | error e => simp
        | ok mirror =>
          simp only []
          split
          · simp
          · refine List.pairwise_filterMap.mpr
              ((rankedTrunc_pairwise qv mirror mc _).imp ?_)
            intro a b hab hit1 h1 hit2 h2
            cases hra : env.readLine a.1 with
            | error err => simp [hra, Except.toOption] at h1
            | ok r1 =>
              cases hrb : env.readLine b.1 with
              | error err => simp [hrb, Except.toOption] at h2
              | ok r2 =>
                simp only [hra, hrb, Except.toOption, Option.map_some',
                  Option.mem_def, Option.some.injEq] at h1 h2
                subst h1; subst h2
                exact hab

/-- Claim C9: `search` propagates no error: a failing query embedding,
metadata count, or mirror-file read yields the empty hit list, and every
returned hit passed its metadata read (a hit whose read fails is dropped
rather than reported). -/
theorem search_error_policy (env : SearchEnv) (o : Option Nat) :
    (∀ err, env.qv = .error err → search env o = []) ∧
    (∀ err, env.metaCount = .error err → search env o = []) ∧
    (∀ err, env.buf = .error err → search env o = []) ∧
    (∀ h ∈ search env o, env.readLine h.id = .ok h.review) := by
  refine ⟨?_, ?_, ?_, ?_⟩
  · intro err hq
    unfold search
    rw [hq]
  · intro err hm
    unfold search
    rw [hm]
    cases env.qv <;> rfl
  · intro err hb
    unfold search
    rw [hb]
    cases env.qv <;> cases env.metaCount <;> rfl
  · intro h hmem
    unfold search at hmem
    split at hmem
    · split at hmem
      · simp at hmem
      · rw [List.mem_filterMap] at hmem
        obtain ⟨p, -, hp⟩ := hmem
        cases hr : env.readLine p.1 with
        | error err => simp [hr, Except.toOption] at hp
        | ok r =>
          simp only [hr, Except.toOption, Option.map_some', Option.mem_def,
            Option.some.injEq] at hp
          subst hp
          exact hr
    · simp at hmem

/-- Witness for C9 at a concrete environment: a failing query embedding
yields the empty hit list. -/
theorem search_error_policy_witness :
    search ⟨.error .environment, .ok 0, .ok [], fun _ => .error .notFound⟩ (some 3) = [] :=
  (search_error_policy ⟨.error .environment, .ok 0, .ok [], fun _ => .error .notFound⟩
    (some 3)).1 .environment rfl

/-- Claim C10: the scan bound `n = min(meta count, buf.len / (D*4))`
keeps every byte-range read in bounds: for `id < n` the chunk
`[id*D*4, (id+1)*D*4)` lies inside the buffer and has exactly `D*4`
bytes, so no trailing partial record is ever read as a vector. -/
theorem scan_chunk_in_bounds {β : Type} (buf : List β) (dim metaCount id : Nat)
    (hid : id < scanCount metaCount buf.length dim) :
    id * bytesPerVecOf dim + bytesPerVecOf dim ≤ buf.length ∧
    (chunkBytes buf dim id).length = bytesPerVecOf dim := by
  have h1 : id < buf.length / bytesPerVecOf dim := by
    have := lt_min_iff.mp hid
    simpa [totalVecsOf] using this.2
  have h2 : (id + 1) * bytesPerVecOf dim ≤ buf.length :=
    le_trans (Nat.mul_le_mul_right _ h1) (Nat.div_mul_le_self _ _)
  rw [Nat.succ_mul] at h2
  refine ⟨h2, ?_⟩
  simp only [chunkBytes, List.length_take, List.length_drop]
  omega

/-- Witness for C10: with one-dimensional records, a 2-line metadata file
and an 8-byte mirror file, record 1 is read from bytes `[4, 8)`. -/
theorem scan_chunk_in_bounds_witness :
    1 * bytesPerVecOf 1 + bytesPerVecOf 1 ≤ (List.replicate 8 (0 : Nat)).length ∧
    (chunkBytes (List.replicate 8 (0 : Nat)) 1 1).length = bytesPerVecOf 1 :=
  scan_chunk_in_bounds (List.replicate 8 (0 : Nat)) 1 2 1 (by decide)

/-- Claim C8: appending a vector of the wrong length fails with a
validation error before any store mutation: the mirror file is returned
unchanged and nothing else was touched. -/
theorem append_wrong_dim_validation {α : Type} (dim : Nat) (fault : Option Err)
    (mirror v : List α) (h : v.length ≠ dim) :
    vec_append dim fault mirror v = (.error .validation, mirror) := by
  unfold vec_append
  simp [h]

/-- Witness for C8: appending an empty vector to a 1-dimensional store is
rejected with a validation error and leaves the store unchanged. -/
theorem append_wrong_dim_validation_witness :
    vec_append 1 none ([5] : List Nat) [] = (.error .validation, [5]) :=
  append_wrong_dim_validation 1 none [5] [] (by decide)

/-- Claim C1 (code bug): the id returned by `VectorStore.append` comes from
the stub `spfresh` `Index::append`, which always returns 0.  Evaluating
two successive successful appends shows both return id 0: the second
successful append (i = 1) does not return 1. -/
theorem append_returns_stub_zero :
    (vec_append 1 none ([] : List Nat) [7]).1 = .ok 0 ∧
    (vec_append 1 none (vec_append 1 none ([] : List Nat) [7]).2 [8]).1 = .ok 0 ∧
    (vec_append 1 none (vec_append 1 none ([] : List Nat) [7]).2 [8]).1 ≠ .ok 1 := by
  have h2 : (vec_append 1 none (vec_append 1 none ([] : List Nat) [7]).2 [8]).1 = .ok 0 := rfl
  refine ⟨rfl, h2, ?_⟩
  rw [h2]
  simp

theorem one_le_satAdd (x : Nat) : 1 ≤ satAdd x := by
  unfold satAdd u32Max
  omega

theorem satAdd_mono {a b : Nat} (h : a ≤ b) : satAdd a ≤ satAdd b := by
  unfold satAdd u32Max
  omega

theorem getD_set_self {α : Type} (l : List α) (i : Nat) (a d : α) :
    (l.set i a).getD i d = if i < l.length then a else l.getD i d := by
  by_cases h : i < l.length
  · simp [List.getD_eq_getElem?_getD, List.getElem?_set, h]
  · simp [List.getD_eq_getElem?_getD, List.getElem?_set, h,
      List.getElem?_eq_none (Nat.le_of_not_lt h)]

theorem getD_set_ne {α : Type} (l : List α) {i j : Nat} (h : i ≠ j) (a d : α) :
    (l.set i a).getD j d = l.getD j d := by
  simp [List.getD_eq_getElem?_getD, List.getElem?_set, h]

theorem bumpAt_length (v : List ℝ) (i : Nat) : (bumpAt v i).length = v.length := by
  simp [bumpAt]

theorem bumpAt_getD (v : List ℝ) (i j : Nat) (hi : i < v.length) :
    (bumpAt v i).getD j 0 = if i = j then v.getD j 0 + 1 else v.getD j 0 := by
  by_cases h : i = j
  · subst h
    rw [bumpAt, getD_set_self, if_pos hi, if_pos rfl]
  · rw [bumpAt, getD_set_ne _ h]
    rw [if_neg h]

theorem tfLoopQ_length (e : Embedder) (ts : List (List Char)) (v : List ℝ) :
    (tfLoopQ e ts v).length = v.length := by
  induction ts generalizing v with
  | nil => rfl
  | cons t ts ih => simp [tfLoopQ, ih, bumpAt_length]

theorem tfLoop_fst (e : Embedder) (ts : List (List Char)) (v : List ℝ) (seen : List Nat) :
    (tfLoop e ts v seen).1 = tfLoopQ e ts v := by
  induction ts generalizing v seen with
  | nil => rfl
  | cons t ts ih => simp only [tfLoop, tfLoopQ, ih]

theorem tfLoopQ_getD (e : Embedder) (ts : List (List Char)) (v : List ℝ) (j : Nat)
    (hb : ∀ t, e.bucket t < v.length) (hj : j < v.length) :
    (tfLoopQ e ts v).getD j 0 = v.getD j 0 + (ts.countP (fun t => e.bucket t = j) : ℝ) := by
  induction ts generalizing v with
  | nil => simp [tfLoopQ]
  | cons t ts ih =>
    have hb2 : ∀ t2, e.bucket t2 < (bumpAt v (e.bucket t)).length := by
      intro t2
      rw [bumpAt_length]
      exact hb t2
    have hj2 : j < (bumpAt v (e.bucket t)).length := by
      rw [bumpAt_length]
      exact hj
    rw [tfLoopQ, ih _ hb2 hj2, bumpAt_getD _ _ _ (hb t), List.countP_cons]
    by_cases h : e.bucket t = j
    · simp only [h, if_pos rfl]
      simp
      ring
    · simp only [if_neg h]
      simp [h]

theorem tfLoop_snd_mem (e : Embedder) (ts : List (List Char)) :
    ∀ (v : List ℝ) (seen : List Nat) (j : Nat),
      (j ∈ (tfLoop e ts v seen).2 ↔ j ∈ seen ∨ j ∈ ts.map e.bucket) := by
  induction ts with
  | nil => simp [tfLoop]
  | cons t ts ih =>
    intro v seen j
    rw [tfLoop]
    rw [ih]
    by_cases h : e.bucket t ∈ seen
    · simp only [h, if_pos h, List.map_cons, List.mem_cons]
      constructor
      · rintro (hs | hm)
        · exact Or.inl hs
        · exact Or.inr (Or.inr hm)
      · rintro (hs | he | hm)
        · exact Or.inl hs
        · exact Or.inl (he ▸ h)
        · exact Or.inr hm
    · simp only [if_neg h, List.mem_append, List.mem_singleton, List.map_cons, List.mem_cons]
      tauto

theorem tfLoop_snd_nodup (e : Embedder) (ts : List (List Char)) :
    ∀ (v : List ℝ) (seen : List Nat), seen.Nodup → (tfLoop e ts v seen).2.Nodup := by
  induction ts with
  | nil => exact fun v seen h => h
  | cons t ts ih =>
    intro v seen h
    rw [tfLoop]
    apply ih
    by_cases hm : e.bucket t ∈ seen
    · rw [if_pos hm]
      exact h
    · rw [if_neg hm]
      refine h.append (List.nodup_singleton _) ?_
      intro a ha hb
      rw [List.mem_singleton] at hb
      subst hb
      exact hm ha

theorem tfLoop_snd_lt (e : Embedder) (ts : List (List Char)) (hdim : 0 < e.dim) :
    ∀ (v : List ℝ) (seen : List Nat), (∀ i ∈ seen, i < e.dim) →
      ∀ i ∈ (tfLoop e ts v seen).2, i < e.dim := by
  induction ts with
  | nil => exact fun v seen h => h
  | cons t ts ih =>
    intro v seen h
    rw [tfLoop]
    apply ih
    intro i hi
    by_cases hm : e.bucket t ∈ seen
    · rw [if_pos hm] at hi
      exact h i hi
    · rw [if_neg hm, List.mem_append, List.mem_singleton] at hi
      rcases hi with hi | hi
      · exact h i hi
      · subst hi
        exact Nat.mod_lt _ hdim

theorem foldl_set_length (f : Nat → Nat) (l : List Nat) (df : List Nat) :
    (l.foldl (fun d i => d.set i (f (d.getD i 0))) df).length = df.length := by
  induction l generalizing df with
  | nil => rfl
  | cons i l ih => rw [List.foldl_cons, ih, List.length_set]

theorem foldl_set_getD (f : Nat → Nat) (l : List Nat) (df : List Nat) (j : Nat)
    (hnd : l.Nodup) :
    (l.foldl (fun d i => d.set i (f (d.getD i 0))) df).getD j 0 =
      if j ∈ l ∧ j < df.length then f (df.getD j 0) else df.getD j 0 := by
  induction l generalizing df with
  | nil => simp
  | cons i l ih =>
    obtain ⟨hni, hnd2⟩ := List.nodup_cons.mp hnd
    rw [List.foldl_cons, ih _ hnd2]
    by_cases hji : j = i
    · subst hji
      have hjl : j ∉ l := hni
      simp only [List.length_set, hjl, false_and, if_false, List.mem_cons, true_or, true_and]
      rw [getD_set_self]
    · rw [List.length_set]
      by_cases hjin : j ∈ l ∧ j < df.length
      · rw [if_pos hjin, getD_set_ne _ (fun hh => hji hh.symm),
          if_pos (And.intro (List.mem_cons_of_mem _ hjin.1) hjin.2)]
      · rw [if_neg hjin, getD_set_ne _ (fun hh => hji hh.symm), if_neg ?_]
        intro hcon
        rcases hcon with ⟨hmem, hlt⟩
        rcases List.mem_cons.mp hmem with hc | hc
        · exact hji hc
        · exact hjin ⟨hc, hlt⟩

theorem mapIdx_getD {α β : Type} (f : Nat → α → β) (v : List α) (j : Nat) (d1 : α) (d2 : β)
    (hj : j < v.length) :
    (v.mapIdx f).getD j d2 = f j (v.getD j d1) := by
  simp [List.getD_eq_getElem?_getD, List.getElem?_mapIdx, List.getElem?_eq_getElem hj]

theorem sumSq_nonneg (v : List ℝ) : 0 ≤ sumSq v := by
  apply List.sum_nonneg
  intro x hx
  obtain ⟨y, -, rfl⟩ := List.mem_map.mp hx
  exact mul_self_nonneg y

theorem one_le_sumSq (w : List ℝ) (j : Nat) (hj : j < w.length) (h1 : 1 ≤ w.getD j 0) :
    1 ≤ sumSq w := by
  have hel : w.getD j 0 ∈ w := by
    rw [List.getD_eq_getElem?_getD, List.getElem?_eq_getElem hj]
    exact List.getElem_mem hj
  have hmem : w.getD j 0 * w.getD j 0 ∈ w.map (fun x => x * x) :=
    List.mem_map.mpr ⟨w.getD j 0, hel, rfl⟩
  have hsq : 1 ≤ w.getD j 0 * w.getD j 0 := by nlinarith
  exact le_trans hsq
    (List.single_le_sum (fun x hx => by
      obtain ⟨y, -, rfl⟩ := List.mem_map.mp hx
      exact mul_self_nonneg y) _ hmem)

theorem one_le_idfR {d n : Nat} (h : d ≤ n) : 1 ≤ idfR d n := by
  unfold idfR
  have hd : (0:ℝ) < (d:ℝ) + 1 := by positivity
  have h1 : (1:ℝ) ≤ ((n:ℝ) + 1) / ((d:ℝ) + 1) := by
    rw [le_div_iff₀ hd]
    have : (d:ℝ) ≤ (n:ℝ) := Nat.cast_le.mpr h
    linarith
  have h2 := Real.log_nonneg h1
  linarith

theorem sumSq_map_div (v : List ℝ) (c : ℝ) :
    sumSq (v.map (fun x => x / c)) = sumSq v / c ^ 2 := by
  induction v with
  | nil => simp [sumSq]
  | cons x v ih =>
    simp only [List.map_cons, sumSq, List.sum_cons] at ih ⊢
    rw [ih]
    ring

theorem sumSq_normalize (v : List ℝ) (h : 1 ≤ sumSq v) : sumSq (l2_normalize v) = 1 := by
  have h0 : (0:ℝ) ≤ sumSq v := le_trans zero_le_one h
  have hs : 1 ≤ Real.sqrt (sumSq v) := by
    rw [show (1:ℝ) = Real.sqrt 1 from Real.sqrt_one.symm]
    exact Real.sqrt_le_sqrt h
  have hmax : max (Real.sqrt (sumSq v)) (1/1000000) = Real.sqrt (sumSq v) :=
    max_eq_left (by linarith)
  show sumSq (v.map (fun x => x / max (Real.sqrt (sumSq v)) (1/1000000))) = 1
  rw [hmax, sumSq_map_div, Real.sq_sqrt h0]
  exact div_self (by linarith)

theorem l2norm_normalize (v : List ℝ) (h : 1 ≤ sumSq v) : l2norm (l2_normalize v) = 1 := by
  rw [l2norm, sumSq_normalize v h, Real.sqrt_one]

theorem weight_replicate_zero (g : Nat → ℝ → ℝ) (hg : ∀ i, g i 0 = 0) (n : Nat) :
    (List.replicate n (0:ℝ)).mapIdx g = List.replicate n 0 := by
  apply List.ext_getElem
  · simp
  · intro i h1 h2
    simp [hg]

theorem l2_normalize_replicate_zero (n : Nat) :
    l2_normalize (List.replicate n 0) = List.replicate n 0 := by
  show (List.replicate n (0:ℝ)).map
    (fun x => x / max (Real.sqrt (sumSq (List.replicate n 0))) (1/1000000)) = _
  rw [List.map_replicate]
  simp

theorem featurize_index_fst_length (e : Embedder) (st : EmbState) (text : List Char) :
    (featurize_index e st text).1.length = e.dim := by
  simp only [featurize_index, l2_normalize, List.length_map, List.length_mapIdx]
  rw [tfLoop_fst, tfLoopQ_length, List.length_replicate]

theorem featurize_query_length (e : Embedder) (st : EmbState) (text : List Char) :
    (featurize_query e st text).length = e.dim := by
  simp only [featurize_query, l2_normalize, List.length_map, List.length_mapIdx]
  rw [tfLoopQ_length, List.length_replicate]

theorem featurize_index_empty (e : Embedder) (st : EmbState) (text : List Char)
    (ht : tokenize text = []) :
    (featurize_index e st text).1 = List.replicate e.dim 0 := by
  simp only [featurize_index, ht, tfLoop]
  rw [weight_replicate_zero _ (fun i => by simp), l2_normalize_replicate_zero]

theorem featurize_query_empty (e : Embedder) (st : EmbState) (text : List Char)
    (ht : tokenize text = []) :
    featurize_query e st text = List.replicate e.dim 0 := by
  simp only [featurize_query, ht, tfLoopQ]
  rw [weight_replicate_zero _ (fun i => by simp), l2_normalize_replicate_zero]

theorem sumSq_featurize (e : Embedder) (st : EmbState) (text : List Char)
    (hdim : 0 < e.dim) (hlen : st.df.length = e.dim)
    (hwf : ∀ i, i < e.dim → st.df.getD i 0 ≤ st.docs) (ht : tokenize text ≠ []) :
    sumSq (featurize_index e st text).1 = 1 ∧ sumSq (featurize_query e st text) = 1 := by
  obtain ⟨t0, ts0, htoks⟩ : ∃ t0 ts0, tokenize text = t0 :: ts0 := by
    cases h : tokenize text with
    | nil => exact absurd h ht
    | cons a l => exact ⟨a, l, rfl⟩
  have ht0 : t0 ∈ tokenize text := by rw [htoks]; exact List.mem_cons_self _ _
  have hi0 : e.bucket t0 < e.dim := Nat.mod_lt _ hdim
  have hbv : ∀ t, e.bucket t < (List.replicate e.dim (0:ℝ)).length := by
    intro t
    rw [List.length_replicate]
    exact Nat.mod_lt _ hdim
  have hvi0 : e.bucket t0 < (List.replicate e.dim (0:ℝ)).length := hbv t0
  have hqlen : (tfLoopQ e (tokenize text) (List.replicate e.dim 0)).length = e.dim := by
    rw [tfLoopQ_length, List.length_replicate]
  have hcount : 0 < (tokenize text).countP (fun t => e.bucket t = e.bucket t0) := by
    rw [List.countP_pos_iff]
    exact ⟨t0, ht0, by simp⟩
  have hvget : (tfLoopQ e (tokenize text) (List.replicate e.dim 0)).getD (e.bucket t0) 0 =
      ((tokenize text).countP (fun t => e.bucket t = e.bucket t0) : ℝ) := by
    rw [tfLoopQ_getD e _ _ _ hbv hvi0]
    simp
  have hvone : 1 ≤ (tfLoopQ e (tokenize text) (List.replicate e.dim 0)).getD (e.bucket t0) 0 := by
    rw [hvget]
    exact_mod_cast hcount
  have hvpos : 0 < (tfLoopQ e (tokenize text) (List.replicate e.dim 0)).getD (e.bucket t0) 0 :=
    lt_of_lt_of_le zero_lt_one hvone
  have hi0q : e.bucket t0 < (tfLoopQ e (tokenize text) (List.replicate e.dim 0)).length := by
    rw [hqlen]
    exact hi0
  constructor
  · -- index path: the df array is updated before weighting
    have hseen_mem : e.bucket t0 ∈ (tfLoop e (tokenize text) (List.replicate e.dim 0) []).2 :=
      (tfLoop_snd_mem e _ _ _ _).mpr (Or.inr (List.mem_map_of_mem _ ht0))
    have hseen_nodup : (tfLoop e (tokenize text) (List.replicate e.dim 0) []).2.Nodup :=
      tfLoop_snd_nodup e _ _ _ List.nodup_nil
    have hdf2 : (((tfLoop e (tokenize text) (List.replicate e.dim 0) []).2).foldl
        (fun df i => df.set i (satAdd (df.getD i 0))) st.df).getD (e.bucket t0) 0 =
        satAdd (st.df.getD (e.bucket t0) 0) := by
      rw [foldl_set_getD _ _ _ _ hseen_nodup]
      rw [if_pos ⟨hseen_mem, by rw [hlen]; exact hi0⟩]
    have hidf : 1 ≤ idfR ((((tfLoop e (tokenize text) (List.replicate e.dim 0) []).2).foldl
        (fun df i => df.set i (satAdd (df.getD i 0))) st.df).getD (e.bucket t0) 0)
        (satAdd st.docs) := by
      apply one_le_idfR
      rw [hdf2]
      exact satAdd_mono (hwf _ hi0)
    simp only [featurize_index]
    rw [tfLoop_fst]
    apply sumSq_normalize
    apply one_le_sumSq _ (e.bucket t0)
    · rw [List.length_mapIdx]
      exact hi0q
    · rw [mapIdx_getD _ _ _ 0 0 hi0q, if_pos hvpos]
      nlinarith [hvone, hidf]
  · -- query path: the df array is read as is, docs floored at 1
    have hidf : 1 ≤ idfR (st.df.getD (e.bucket t0) 0) (max st.docs 1) :=
      one_le_idfR (le_trans (hwf _ hi0) (le_max_left _ _))
    simp only [featurize_query]
    apply sumSq_normalize
    apply one_le_sumSq _ (e.bucket t0)
    · rw [List.length_mapIdx]
      exact hi0q
    · rw [mapIdx_getD _ _ _ 0 0 hi0q, if_pos hvpos]
      nlinarith [hvone, hidf]

/-- Claim C5: for input with at least one token both embedder outputs have
L2 norm exactly 1 (the real-arithmetic reading of "1.0 within epsilon");
for token-free input both return the zero vector (epsilon-floored
normalization); and neither embedding operation can fail. -/
theorem embedder_norm_one_or_zero (e : Embedder) (st : EmbState) (text : List Char)
    (hdim : 0 < e.dim) (hlen : st.df.length = e.dim)
    (hwf : ∀ i, i < e.dim → st.df.getD i 0 ≤ st.docs) :
    (tokenize text ≠ [] →
      l2norm (featurize_index e st text).1 = 1 ∧ l2norm (featurize_query e st text) = 1) ∧
    (tokenize text = [] →
      (featurize_index e st text).1 = List.replicate e.dim 0 ∧
      featurize_query e st text = List.replicate e.dim 0) ∧
    embed_index e st text = .ok (featurize_index e st text) ∧
    embed_query e st text = .ok (featurize_query e st text) := by
  refine ⟨fun ht => ?_,
    fun ht => ⟨featurize_index_empty e st text ht, featurize_query_empty e st text ht⟩,
    rfl, rfl⟩
  obtain ⟨h1, h2⟩ := sumSq_featurize e st text hdim hlen hwf ht
  exact ⟨by rw [l2norm, h1, Real.sqrt_one], by rw [l2norm, h2, Real.sqrt_one]⟩

/-- Witness for C5 at a concrete embedder (dimension 1, constant hash),
fresh statistics and the one-token text `"a"`. -/
theorem embedder_norm_one_or_zero_witness :
    l2norm (featurize_index ⟨1, fun _ => 0, fun t => t⟩ (initEmbState 1) ['a']).1 = 1 ∧
    l2norm (featurize_query ⟨1, fun _ => 0, fun t => t⟩ (initEmbState 1) ['a']) = 1 :=
  (embedder_norm_one_or_zero ⟨1, fun _ => 0, fun t => t⟩ (initEmbState 1) ['a']
    (by decide) (by decide) (by decide)).1 (by decide)

theorem featurize_query_after_index (e : Embedder) (st : EmbState) (text : List Char) :
    featurize_query e (featurize_index e st text).2 text = (featurize_index e st text).1 := by
  simp only [featurize_index, featurize_query]
  rw [tfLoop_fst, max_eq_left (one_le_satAdd st.docs)]

theorem cosine_self (v : List ℝ) : cosine v v = sumSq v := by
  rw [cosine, List.zipWith_same]
  rfl

/-- Counterexample to claim C6 as stated: for the empty text both
embedders return the zero vector under identical corpus statistics, so
the dot product is 0, not approximately 1. -/
theorem dot_empty_text_zero :
    cosine (featurize_index ⟨1, fun _ => 0, fun t => t⟩ (initEmbState 1) []).1
      (featurize_query ⟨1, fun _ => 0, fun t => t⟩
        (featurize_index ⟨1, fun _ => 0, fun t => t⟩ (initEmbState 1) []).2 []) = 0 ∧
    (0:ℝ) ≠ 1 := by
  constructor
  · rw [featurize_index_empty ⟨1, fun _ => 0, fun t => t⟩ (initEmbState 1) [] (by decide),
      featurize_query_empty ⟨1, fun _ => 0, fun t => t⟩ _ [] (by decide)]
    simp [cosine]
  · norm_num

/-- Claim C6, amended: for every text yielding at least one token,
`embed_index` and `embed_query` evaluated under identical corpus
statistics (the query weighted with exactly the df array and document
count the index embedding produced) give vectors whose dot product is
exactly 1 in the real-valued model. -/
theorem index_query_dot_one (e : Embedder) (st : EmbState) (text : List Char)
    (hdim : 0 < e.dim) (hlen : st.df.length = e.dim)
    (hwf : ∀ i, i < e.dim → st.df.getD i 0 ≤ st.docs) (ht : tokenize text ≠ []) :
    cosine (featurize_index e st text).1
      (featurize_query e (featurize_index e st text).2 text) = 1 := by
  rw [featurize_query_after_index, cosine_self]
  exact (sumSq_featurize e st text hdim hlen hwf ht).1

/-- Witness for the amended C6 at the one-token text `"b"` and a fresh
1-dimensional embedder. -/
theorem index_query_dot_one_witness :
    cosine (featurize_index ⟨1, fun _ => 0, fun t => t⟩ (initEmbState 1) ['b']).1
      (featurize_query ⟨1, fun _ => 0, fun t => t⟩
        (featurize_index ⟨1, fun _ => 0, fun t => t⟩ (initEmbState 1) ['b']).2 ['b']) = 1 :=
  index_query_dot_one ⟨1, fun _ => 0, fun t => t⟩ (initEmbState 1) ['b']
    (by decide) (by decide) (by decide) (by decide)

theorem vec_append_ok {α : Type} (dim : Nat) (mirror v : List α) (h : v.length = dim) :
    vec_append dim none mirror v = (.ok 0, mirror ++ v) := by
  unfold vec_append stubIndexAppend
  rw [if_pos h]
  simp only [mirrorByteLen, List.length_append]
  rw [if_pos (by omega)]

theorem insert_one_noFault (e : Embedder) (s : Sys) (r : Review) :
    insert_one e noFault s r =
      (.ok 0, ⟨(featurize_index e s.emb (r.review_title ++ [' '] ++ r.review_body)).2,
        s.mirror ++ (featurize_index e s.emb (r.review_title ++ [' '] ++ r.review_body)).1,
        s.meta ++ [r]⟩) := by
  unfold insert_one
  simp only [noFault]
  rw [vec_append_ok _ _ _ (featurize_index_fst_length e s.emb _)]
  simp only [meta_append]

theorem insert_one_noFault_mirror (e : Embedder) (s : Sys) (r : Review) :
    (insert_one e noFault s r).2.mirror =
      s.mirror ++ (featurize_index e s.emb (r.review_title ++ [' '] ++ r.review_body)).1 := by
  rw [insert_one_noFault]

theorem insert_one_noFault_meta (e : Embedder) (s : Sys) (r : Review) :
    (insert_one e noFault s r).2.meta = s.meta ++ [r] := by
  rw [insert_one_noFault]

theorem insertAll_counts (e : Embedder) (rs : List Review) :
    ∀ s : Sys, (insertAll e s rs).mirror.length = s.mirror.length + rs.length * e.dim ∧
      (insertAll e s rs).meta.length = s.meta.length + rs.length := by
  induction rs with
  | nil => intro s; simp [insertAll]
  | cons r rs ih =>
    intro s
    rw [insertAll]
    obtain ⟨h1, h2⟩ := ih (insert_one e noFault s r).2
    constructor
    · rw [h1, insert_one_noFault_mirror]
      simp only [List.length_append, featurize_index_fst_length, List.length_cons]
      ring
    · rw [h2, insert_one_noFault_meta]
      simp only [List.length_append, List.length_cons, List.length_nil]
      omega

/-- Claim C2: starting from empty stores, after `n` fault-free inserts the
mirror-file record count (byte length divided by `D*4`) and the metadata
line count both equal `n`; every fault-free insert indeed succeeds. -/
theorem insert_counts_agree (e : Embedder) (hdim : 0 < e.dim) (emb0 : EmbState)
    (rs : List Review) :
    mirrorByteLen (insertAll e ⟨emb0, [], []⟩ rs).mirror / bytesPerVecOf e.dim = rs.length ∧
    meta_count (insertAll e ⟨emb0, [], []⟩ rs).meta = rs.length ∧
    (∀ (s : Sys) (r : Review), (insert_one e noFault s r).1 = .ok 0) := by
  obtain ⟨h1, h2⟩ := insertAll_counts e rs ⟨emb0, [], []⟩
  refine ⟨?_, ?_, fun s r => by rw [insert_one_noFault]⟩
  · rw [mirrorByteLen, h1]
    simp only [List.length_nil, Nat.zero_add]
    have hmul : 4 * (rs.length * e.dim) = rs.length * (e.dim * 4) := by ring
    rw [hmul, bytesPerVecOf, Nat.mul_div_cancel _ (by omega)]
  · rw [meta_count, h2]
    simp

/-- Witness for C2: two concrete inserts into an empty 1-dimensional store
leave 2 vector records and 2 metadata lines. -/
theorem insert_counts_agree_witness :
    mirrorByteLen (insertAll ⟨1, fun _ => 0, fun t => t⟩ ⟨initEmbState 1, [], []⟩
        [⟨['a'], ['b'], ['p'], 5⟩, ⟨['c'], ['d'], ['q'], 4⟩]).mirror
      / bytesPerVecOf 1 = 2 ∧
    meta_count (insertAll ⟨1, fun _ => 0, fun t => t⟩ ⟨initEmbState 1, [], []⟩
        [⟨['a'], ['b'], ['p'], 5⟩, ⟨['c'], ['d'], ['q'], 4⟩]).meta = 2 :=
  ⟨(insert_counts_agree ⟨1, fun _ => 0, fun t => t⟩ (by decide) (initEmbState 1)
      [⟨['a'], ['b'], ['p'], 5⟩, ⟨['c'], ['d'], ['q'], 4⟩]).1,
   (insert_counts_agree ⟨1, fun _ => 0, fun t => t⟩ (by decide) (initEmbState 1)
      [⟨['a'], ['b'], ['p'], 5⟩, ⟨['c'], ['d'], ['q'], 4⟩]).2.1⟩

theorem insert_one_metaFault (e : Embedder) (err : Err) (s : Sys) (r : Review) :
    insert_one e ⟨none, some err⟩ s r =
      (.error err, ⟨(featurize_index e s.emb (r.review_title ++ [' '] ++ r.review_body)).2,
        s.mirror ++ (featurize_index e s.emb (r.review_title ++ [' '] ++ r.review_body)).1,
        s.meta⟩) := by
  unfold insert_one
  simp only []
  rw [vec_append_ok _ _ _ (featurize_index_fst_length e s.emb _)]
  simp only [meta_append]

/-- Counterexample to claim C7 as stated: when the first document's
metadata write fails, the loop's `.expect` panics: the model's
`insert_bulk` yields an error and no `insertedCount` value, rather than
reporting the count of documents inserted before the failure. -/
theorem bulk_failure_no_count :
    (insert_bulk ⟨1, fun _ => 0, fun t => t⟩ (fun _ => ⟨none, some .environment⟩)
      ⟨initEmbState 1, [], []⟩ [⟨['a'], ['b'], ['p'], 5⟩]).1 = .error .environment := by
  unfold insert_bulk insert_bulk_go
  rw [insert_one_metaFault]

theorem insert_bulk_go_spec (e : Embedder) (faults : Nat → Fault) :
    ∀ (rs : List Review) (i acc : Nat) (s : Sys),
      ∃ n, n ≤ rs.length ∧ ∃ s1,
        runOk e faults i s (rs.take n) = some s1 ∧
        ((n = rs.length ∧ insert_bulk_go e faults i acc s rs = (.ok (acc + n), s1)) ∨
         (∃ r err s2, rs[n]? = some r ∧
            insert_one e (faults (i + n)) s1 r = (.error err, s2) ∧
            insert_bulk_go e faults i acc s rs = (.error err, s2))) := by
  intro rs
  induction rs with
  | nil =>
    intro i acc s
    exact ⟨0, Nat.le_refl 0, s, rfl, Or.inl ⟨rfl, rfl⟩⟩
  | cons r rs ih =>
    intro i acc s
    cases hstep : insert_one e (faults i) s r with
    | mk res s2 =>
      cases res with
      | ok id =>
        obtain ⟨n, hn, s1, hrun, hcase⟩ := ih (i + 1) (acc + 1) s2
        refine ⟨n + 1, by simpa using Nat.succ_le_succ hn, s1, ?_, ?_⟩
        · rw [List.take_succ_cons, runOk, hstep]
          exact hrun
        · rcases hcase with ⟨hlen, hgo⟩ | ⟨r2, err, s3, hget, hfail, hgo⟩
          · refine Or.inl ⟨by simp [hlen], ?_⟩
            have hred : insert_bulk_go e faults i acc s (r :: rs) =
                insert_bulk_go e faults (i + 1) (acc + 1) s2 rs := by
              rw [insert_bulk_go, hstep]
            rw [hred, hgo]
            have : acc + 1 + n = acc + (n + 1) := by omega
            rw [this]
          · refine Or.inr ⟨r2, err, s3, by simpa using hget, ?_, ?_⟩
            · have : i + (n + 1) = i + 1 + n := by omega
              rw [this]
              exact hfail
            · rw [insert_bulk_go, hstep]
              exact hgo
      | error err =>
        refine ⟨0, Nat.zero_le _, s, rfl, Or.inr ⟨r, err, s2, by simp, ?_, ?_⟩⟩
        · rw [Nat.add_zero]
          exact hstep
        · rw [insert_bulk_go, hstep]

/-- Claim C7, amended: `insert_bulk` applies the insert pipeline to the
documents in input order and aborts at the first failure: a prefix of
`n ≤ |docs|` documents is inserted successfully; when `n = |docs|` the
call reports `insertedCount = |docs|`; otherwise document `n` fails from
the state the prefix produced and the call panics with that error —
documents after the failing one are never processed and no
`insertedCount` is reported. -/
theorem insert_bulk_failfast (e : Embedder) (faults : Nat → Fault) (s : Sys)
    (rs : List Review) :
    ∃ n, n ≤ rs.length ∧ ∃ s1,
      runOk e faults 0 s (rs.take n) = some s1 ∧
      ((n = rs.length ∧ insert_bulk e faults s rs = (.ok rs.length, s1)) ∨
       (∃ r err s2, rs[n]? = some r ∧
          insert_one e (faults n) s1 r = (.error err, s2) ∧
          insert_bulk e faults s rs = (.error err, s2))) := by
  obtain ⟨n, hn, s1, hrun, hcase⟩ := insert_bulk_go_spec e faults rs 0 0 s
  refine ⟨n, hn, s1, hrun, ?_⟩
  rcases hcase with ⟨hlen, hgo⟩ | ⟨r, err, s2, hget, hfail, hgo⟩
  · refine Or.inl ⟨hlen, ?_⟩
    rw [insert_bulk, hgo, Nat.zero_add, hlen]
  · refine Or.inr ⟨r, err, s2, hget, ?_, ?_⟩
    · rw [← Nat.zero_add n]
      exact hfail
    · rw [insert_bulk, hgo]

theorem satAdd_eq (x : Nat) (h : x < u32Max) : satAdd x = x + 1 := by
  unfold satAdd
  unfold u32Max at h ⊢
  omega

theorem list_ext_getD {α : Type} (l1 l2 : List α) (d : α) (hlen : l1.length = l2.length)
    (h : ∀ j, j < l1.length → l1.getD j d = l2.getD j d) : l1 = l2 := by
  apply List.ext_getElem hlen
  intro j h1 h2
  have hj := h j h1
  rw [List.getD_eq_getElem?_getD, List.getD_eq_getElem?_getD, List.getElem?_eq_getElem h1,
    List.getElem?_eq_getElem h2] at hj
  simpa using hj

theorem range_map_getD {β : Type} (g : Nat → β) (n j : Nat) (d : β) (hj : j < n) :
    ((List.range n).map g).getD j d = g j := by
  rw [List.getD_eq_getElem?_getD, List.getElem?_map, List.getElem?_range hj]
  rfl

theorem seen_mem_any (e : Embedder) (toks : List (List Char)) (j : Nat) :
    (j ∈ (tfLoop e toks (List.replicate e.dim 0) []).2) ↔
      (toks.any (fun t => e.bucket t = j) = true) := by
  rw [tfLoop_snd_mem]
  simp [List.mem_map]

theorem rsplit_decomp (p : Char → Bool) (s : List Char) :
    (s.dropWhile (fun c => !p c) = [] ∧
      rsplit p s = [s.takeWhile (fun c => !p c)]) ∨
    (∃ d ds, s.dropWhile (fun c => !p c) = d :: ds ∧
      rsplit p s = s.takeWhile (fun c => !p c) :: rsplit p ds) := by
  induction s with
  | nil => exact Or.inl ⟨rfl, rfl⟩
  | cons c cs ih =>
    by_cases hp : p c
    · refine Or.inr ⟨c, cs, ?_, ?_⟩
      · rw [List.dropWhile_cons_of_neg (by simp [hp])]
      · rw [List.takeWhile_cons_of_neg (by simp [hp])]
        rw [rsplit, if_pos hp]
    · rcases ih with ⟨hd, hs⟩ | ⟨d, ds, hd, hs⟩
      · refine Or.inl ⟨?_, ?_⟩
        · rw [List.dropWhile_cons_of_pos (by simp [hp]), hd]
        · rw [List.takeWhile_cons_of_pos (by simp [hp]), rsplit, if_neg hp, hs,
            List.modifyHead_cons]
      · refine Or.inr ⟨d, ds, ?_, ?_⟩
        · rw [List.dropWhile_cons_of_pos (by simp [hp]), hd]
        · rw [List.takeWhile_cons_of_pos (by simp [hp]), rsplit, if_neg hp, hs,
            List.modifyHead_cons]

theorem filter_rsplit (p : Char → Bool) : ∀ (n : Nat) (s : List Char), s.length ≤ n →
    (rsplit p s).filter (fun t => t ≠ []) = runs (fun c => !p c) s := by
  intro n
  induction n with
  | zero =>
    intro s hs
    have hnil : s = [] := List.length_eq_zero.mp (Nat.le_zero.mp hs)
    subst hnil
    simp [rsplit, runs]
  | succ n ih =>
    intro s hs
    cases s with
    | nil => simp [rsplit, runs]
    | cons c cs =>
      simp only [List.length_cons, Nat.succ_le_succ_iff] at hs
      by_cases hp : p c
      · rw [rsplit, if_pos hp, runs, if_neg (by simp [hp]),
          List.filter_cons_of_neg (by simp)]
        exact ih cs hs
      · rcases rsplit_decomp p cs with ⟨hd, hsplit⟩ | ⟨d, ds, hd, hsplit⟩
        · rw [rsplit, if_neg hp, hsplit, List.modifyHead_cons, runs, if_pos (by simp [hp]), hd,
            runs, List.filter_cons_of_pos (by simp)]
          simp
        · have hlen2 : (cs.dropWhile (fun c => !p c)).length ≤ cs.length := by
            have hw : (cs.takeWhile (fun c => !p c)).length +
                (cs.dropWhile (fun c => !p c)).length = cs.length := by
              rw [← List.length_append, List.takeWhile_append_dropWhile]
            omega
          rw [hd] at hlen2
          have hqd : p d = true := by
            have h := List.head?_dropWhile_not (fun c => !p c) cs
            rw [hd] at h
            simpa using h
          rw [rsplit, if_neg hp, hsplit, List.modifyHead_cons, runs, if_pos (by simp [hp]), hd,
            runs, if_neg (by simp [hqd]), List.filter_cons_of_pos (by simp)]
          rw [ih ds (by simp at hlen2; omega)]

theorem tokenize_eq_runs (s : List Char) :
    tokenize s = runs (fun c => c.isAlphanum) s := by
  have h := filter_rsplit (fun c => !c.isAlphanum) s.length s (Nat.le_refl _)
  rw [tokenize, h]
  have hfun : (fun c => !(fun c : Char => !c.isAlphanum) c) = (fun c : Char => c.isAlphanum) := by
    funext c
    simp
  rw [hfun]

/-- Claim C4: `featurize_index` follows the specified algorithm: tokens
are the maximal alphanumeric runs (empty tokens dropped), the raw term
frequency of bucket `i` counts the tokens hashed to `i`, the
document-frequency counter is incremented exactly once per distinct
touched bucket and the document counter exactly once per call, and every
nonzero dimension is multiplied by `ln((docs+1)/(df_i+1)) + 1` computed
from the updated statistics, before L2 normalization.  Stated as equality
with the spec-side definition, away from `u32` saturation. -/
theorem featurize_index_follows_spec (e : Embedder) (st : EmbState) (text : List Char)
    (hdim : 0 < e.dim) (hlen : st.df.length = e.dim)
    (hdf : ∀ i, i < e.dim → st.df.getD i 0 < u32Max) (hdocs : st.docs < u32Max) :
    featurize_index e st text = featurize_index_spec e st text := by
  have htok : runs (fun c => c.isAlphanum) text = tokenize text := (tokenize_eq_runs text).symm
  have hnodup : (tfLoop e (tokenize text) (List.replicate e.dim 0) []).2.Nodup :=
    tfLoop_snd_nodup e _ _ _ List.nodup_nil
  have hdfeq :
      ((tfLoop e (tokenize text) (List.replicate e.dim 0) []).2).foldl
        (fun df i => df.set i (satAdd (df.getD i 0))) st.df =
      st.df.mapIdx (fun i x =>
        if (tokenize text).any (fun t => e.bucket t = i) then x + 1 else x) := by
    apply list_ext_getD _ _ 0
    · rw [foldl_set_length, List.length_mapIdx]
    · intro j hj
      rw [foldl_set_length] at hj
      rw [foldl_set_getD _ _ _ _ hnodup, mapIdx_getD _ _ _ 0 0 hj]
      by_cases hmem : j ∈ (tfLoop e (tokenize text) (List.replicate e.dim 0) []).2
      · have hany : (tokenize text).any (fun t => e.bucket t = j) = true :=
          (seen_mem_any e _ j).mp hmem
        rw [if_pos ⟨hmem, hj⟩, if_pos hany, satAdd_eq _ (hdf j (hlen ▸ hj))]
      · have hany : ¬ (tokenize text).any (fun t => e.bucket t = j) = true := by
          intro hc
          exact hmem ((seen_mem_any e _ j).mpr hc)
        rw [if_neg (by tauto), if_neg hany]
  have hwlen : ((tfLoop e (tokenize text) (List.replicate e.dim 0) []).1).length = e.dim := by
    rw [tfLoop_fst, tfLoopQ_length, List.length_replicate]
  have hvget : ∀ j, j < e.dim →
      ((tfLoop e (tokenize text) (List.replicate e.dim 0) []).1).getD j 0 =
      ((tokenize text).countP (fun t => e.bucket t = j) : ℝ) := by
    intro j hj
    rw [tfLoop_fst, tfLoopQ_getD e _ _ _
      (fun t => by rw [List.length_replicate]; exact Nat.mod_lt _ hdim)
      (by rw [List.length_replicate]; exact hj)]
    simp
  simp only [featurize_index, featurize_index_spec]
  rw [htok]
  simp only [satAdd_eq st.docs hdocs, hdfeq]
  congr 1
  apply congrArg
  apply list_ext_getD _ _ 0
  · rw [List.length_mapIdx, hwlen, List.length_map, List.length_range]
  · intro j hj
    rw [List.length_mapIdx, hwlen] at hj
    rw [mapIdx_getD _ _ _ 0 0 (by rw [hwlen]; exact hj), range_map_getD _ _ _ _ hj,
      hvget j hj]
    by_cases hc : (tokenize text).countP (fun t => e.bucket t = j) = 0
    · rw [if_neg (by rw [hc]; simp), if_neg (by tauto)]
    · have hpos : (0:ℝ) < ((tokenize text).countP (fun t => e.bucket t = j) : ℝ) := by
        exact_mod_cast Nat.pos_of_ne_zero hc
      rw [if_pos hpos, if_pos hc, idfR]

/-- Witness for C4 at a concrete embedder (dimension 1, constant hash),
fresh statistics and the text `"a"`. -/
theorem featurize_index_follows_spec_witness :
    featurize_index ⟨1, fun _ => 0, fun t => t⟩ (initEmbState 1) ['a'] =
      featurize_index_spec ⟨1, fun _ => 0, fun t => t⟩ (initEmbState 1) ['a'] :=
  featurize_index_follows_spec ⟨1, fun _ => 0, fun t => t⟩ (initEmbState 1) ['a']
    (by decide) (by decide) (by decide) (by decide)

end SemesticReview
